import Mathlib

/-!
Shallow embedding of `update_tickers.py` (top-us-stock-tickers).

The script fetches screener rows, filters to US stocks, deduplicates by
trimmed symbol, parses price / market cap / volume fields, sorts by market
cap descending (nulls last) and writes CSV files: a full list, top-N
prefixes and one file per sanitized industry name.

Modelling conventions:
* Python `float` values are modelled as exact rationals `ℚ`; the decimal
  grammar accepted by `float(...)` is modelled on plain decimal literals
  (optional sign, digits, optional fraction, optional exponent, surrounding
  whitespace).  The source never feeds it `inf`/`nan`/underscore forms.
* Raw JSON rows are records of `Option String`; `row.get(k, '')` becomes
  `Option.getD` with default `""`.
* File writes are modelled as a list of (filename, rows) events in write
  order; the resulting file system maps a name to the last write with that
  name.
-/

attribute [local semireducible] Rat.mul Rat.add Rat.inv Rat.sub Rat.ofScientific

/-- Numeric value of a list of decimal digit characters, most significant
first, as produced by Python `int`/`float` on a digit run. -/
def natOfDigits (ds : List Char) : ℕ :=
  ds.foldl (fun a c => 10 * a + (c.toNat - 48)) 0

/-- Exponent part of a Python float literal: optional sign followed by at
least one digit. -/
def parseExp : List Char → Option ℤ
  | [] => none
  | '+' :: cs => if cs ≠ [] ∧ cs.all Char.isDigit then some (natOfDigits cs) else none
  | '-' :: cs => if cs ≠ [] ∧ cs.all Char.isDigit then some (-(natOfDigits cs : ℤ)) else none
  | cs => if cs.all Char.isDigit then some (natOfDigits cs) else none

/-- Unsigned Python float literal: digits with optional fractional part
and optional exponent, or a fraction starting with the decimal point. -/
def parseUnsigned (cs : List Char) : Option ℚ :=
  let ip := cs.takeWhile Char.isDigit
  let r1 := cs.dropWhile Char.isDigit
  match r1 with
  | '.' :: r2 =>
    let fp := r2.takeWhile Char.isDigit
    let r3 := r2.dropWhile Char.isDigit
    if ip = [] ∧ fp = [] then none
    else
      let m : ℚ := (natOfDigits ip : ℚ) + (natOfDigits fp : ℚ) / 10 ^ fp.length
      match r3 with
      | [] => some m
      | 'e' :: r4 => (parseExp r4).map (fun e => m * (10 : ℚ) ^ e)
      | 'E' :: r4 => (parseExp r4).map (fun e => m * (10 : ℚ) ^ e)
      | _ => none
  | 'e' :: r4 =>
    if ip = [] then none else (parseExp r4).map (fun e => (natOfDigits ip : ℚ) * (10 : ℚ) ^ e)
  | 'E' :: r4 =>
    if ip = [] then none else (parseExp r4).map (fun e => (natOfDigits ip : ℚ) * (10 : ℚ) ^ e)
  | [] => if ip = [] then none else some (natOfDigits ip : ℚ)
  | _ => none

/-- Python `s.strip()`: remove leading and trailing whitespace. -/
def pyStrip (s : String) : String :=
  ⟨((s.data.dropWhile Char.isWhitespace).reverse.dropWhile Char.isWhitespace).reverse⟩

/-- Python `s.replace(c, '')` for a one-character pattern and empty
replacement: remove every occurrence of the character. -/
def pyRemoveChar (c : Char) (s : String) : String :=
  ⟨s.data.filter (fun d => d != c)⟩

/-- Python `float(s)` on the decimal fragment: optional surrounding
whitespace, optional sign, then an unsigned float literal.  `none` models a
raised `ValueError`. -/
def pyFloat (s : String) : Option ℚ :=
  match (pyStrip s).data with
  | '+' :: cs => parseUnsigned cs
  | '-' :: cs => (parseUnsigned cs).map Neg.neg
  | cs => parseUnsigned cs

/-- Python `int(s)`: optional surrounding whitespace, optional sign, then
at least one decimal digit.  `none` models a raised `ValueError`. -/
def pyInt (s : String) : Option ℤ :=
  match (pyStrip s).data with
  | '+' :: cs => if cs ≠ [] ∧ cs.all Char.isDigit then some (natOfDigits cs) else none
  | '-' :: cs => if cs ≠ [] ∧ cs.all Char.isDigit then some (-(natOfDigits cs : ℤ)) else none
  | cs => if cs ≠ [] ∧ cs.all Char.isDigit then some (natOfDigits cs) else none

/-- Shared cleaning step `s.replace('$', '').replace(',', '').strip()` of
`parse_market_cap` and `parse_number`. -/
def clean (s : String) : String :=
  pyStrip (pyRemoveChar ',' (pyRemoveChar '$' s))

/-- Python `s.endswith(c)` for a single-character suffix: the last
character equals `c`. -/
def pyEndsWith1 (s : String) (c : Char) : Bool :=
  s.data.getLast? == some c

/-- Python `s[:-1]`: drop the last character (empty string stays empty). -/
def pyDropLast (s : String) : String :=
  ⟨s.data.dropLast⟩

/-- `parse_market_cap` from `update_tickers.py`: null on empty or N/A,
otherwise clean the string, apply the suffix table {T, B, M, K} in that
order, else parse directly; null on parse failure. -/
def parse_market_cap (s : String) : Option ℚ :=
  if s = "" ∨ s = "N/A" then none
  else
    let t := clean s
    if pyEndsWith1 t 'T' then (pyFloat (pyDropLast t)).map (fun q => q * 1000000000000)
    else if pyEndsWith1 t 'B' then (pyFloat (pyDropLast t)).map (fun q => q * 1000000000)
    else if pyEndsWith1 t 'M' then (pyFloat (pyDropLast t)).map (fun q => q * 1000000)
    else if pyEndsWith1 t 'K' then (pyFloat (pyDropLast t)).map (fun q => q * 1000)
    else pyFloat t

/-- `parse_number` from `update_tickers.py`. -/
def parse_number (s : String) : Option ℚ :=
  if s = "" ∨ s = "N/A" then none
  else pyFloat (pyStrip (pyRemoveChar ',' (pyRemoveChar '$' s)))

/-- `parse_int` from `update_tickers.py`.  Note: only commas are stripped,
not dollar signs. -/
def parse_int (s : String) : Option ℤ :=
  if s = "" ∨ s = "N/A" then none
  else pyInt (pyStrip (pyRemoveChar ',' s))

/-- One raw JSON row from the screener response.  Every field is an
optional string, matching `row.get(key, default)` access in the script. -/
structure RawRow where
  country : Option String := none
  symbol : Option String := none
  name : Option String := none
  lastsale : Option String := none
  marketCap : Option String := none
  volume : Option String := none
  sector : Option String := none
deriving Repr, DecidableEq

/-- One normalized ticker record, the dictionary built in `fetch_tickers`. -/
structure TickerRecord where
  symbol : String
  name : String
  price : Option ℚ
  marketCap : Option ℚ
  volume : Option ℤ
  industry : String
deriving Repr, DecidableEq

/-- The trimmed symbol `row.get('symbol', '').strip()`. -/
def trimSym (row : RawRow) : String :=
  pyStrip (row.symbol.getD "")

/-- Construction of the ticker dictionary appended in the fetch loop. -/
def mkRecord (row : RawRow) : TickerRecord where
  symbol := trimSym row
  name := row.name.getD ""
  price := parse_number (row.lastsale.getD "")
  marketCap := parse_market_cap (row.marketCap.getD "")
  volume := parse_int (row.volume.getD "")
  industry := row.sector.getD ""

/-- The per-row loop of `fetch_tickers`: skip non-US rows, skip rows with
an empty trimmed symbol or an already-seen symbol, otherwise append the
record and mark the symbol seen. -/
def processRows : List RawRow → List String → List TickerRecord
  | [], _ => []
  | row :: rest, seen =>
    if row.country = some "United States" then
      if trimSym row = "" ∨ trimSym row ∈ seen then processRows rest seen
      else mkRecord row :: processRows rest (trimSym row :: seen)
    else processRows rest seen

/-- `fetch_tickers` after a successful fetch returning the given rows:
the normalization/deduplication pass with an initially empty seen set. -/
def fetch_tickers (rows : List RawRow) : List TickerRecord :=
  processRows rows []

/-- US-row test `row.get('country') == 'United States'`. -/
def isUS (row : RawRow) : Bool :=
  decide (row.country = some "United States")

/-- Rows of the raw input that are retained by the country filter. -/
def usRows (rows : List RawRow) : List RawRow :=
  rows.filter isUS

/-- Retained rows whose trimmed symbol is `s`, in input order. -/
def rowsWithSym (rows : List RawRow) (s : String) : List RawRow :=
  (usRows rows).filter (fun r => decide (trimSym r = s))

/-- Market-cap key used for ordering non-null records. -/
def capOf (r : TickerRecord) : ℚ :=
  r.marketCap.getD 0

/-- Insert a record into a descending-sorted list, before the first
element of not-larger key. -/
def insertCapDesc (r : TickerRecord) : List TickerRecord → List TickerRecord
  | [] => [r]
  | x :: xs => if capOf x ≤ capOf r then r :: x :: xs else x :: insertCapDesc r xs

/-- Sort records by market cap, descending. -/
def sortCapDesc : List TickerRecord → List TickerRecord
  | [] => []
  | r :: rs => insertCapDesc r (sortCapDesc rs)

/-- Model of `df.sort_values('marketCap', ascending=False)` with the
default `na_position='last'`: the non-null records sorted by market cap
descending, followed by the null-market-cap records in input order.  The
multiset of records, the descending key order, and the nulls-last
placement are faithful to pandas `nargsort`; the relative order of
records with equal market cap is implementation-defined in the source
(default `kind='quicksort'`), and this model fixes it arbitrarily by a
stable sort, so no theorem below relies on the order of equal keys. -/
def sort_values_marketCap_desc (tickers : List TickerRecord) : List TickerRecord :=
  sortCapDesc (tickers.filter (fun r => r.marketCap.isSome)) ++
    tickers.filter (fun r => r.marketCap.isNone)

/-- Character class of the regex `[^\w\s-]` complement: kept characters
of the industry filename (word characters, whitespace, hyphen). -/
def keepChar (c : Char) : Bool :=
  c.isAlphanum || c = '_' || c.isWhitespace || c = '-'

/-- Replace each maximal whitespace run by a single underscore, the model
of `re.sub(r'\s+', '_', s)`. -/
def collapseWsAux : Bool → List Char → List Char
  | _, [] => []
  | inWs, c :: cs =>
    if c.isWhitespace then
      if inWs then collapseWsAux true cs else '_' :: collapseWsAux true cs
    else c :: collapseWsAux false cs

/-- Safe filename for an industry: lower-case, drop characters outside
`[\w\s-]`, strip, then collapse whitespace runs to single underscores. -/
def sanitize (industry : String) : String :=
  ⟨collapseWsAux false (pyStrip ⟨(industry.data.map Char.toLower).filter keepChar⟩).data⟩

/-- Lexicographic order on character lists, by code point. -/
def charsLe : List Char → List Char → Bool
  | [], _ => true
  | _ :: _, [] => false
  | a :: as, b :: bs => if a = b then charsLe as bs else decide (a < b)

/-- Lexicographic order on strings by code point, as Python compares
strings. -/
def strLe (a b : String) : Bool :=
  charsLe a.data b.data

/-- Insert a string into an ascending-sorted list. -/
def insertStr (s : String) : List String → List String
  | [] => [s]
  | x :: xs => if strLe s x then s :: x :: xs else x :: insertStr s xs

/-- Model of Python `sorted` on strings (the industry values written are
pairwise distinct, so tie order is irrelevant). -/
def sortStrs (l : List String) : List String :=
  l.foldr insertStr []

/-- Model of pandas `Series.unique`: keep the first occurrence of each
value. -/
def firstDedup : List String → List String
  | [] => []
  | x :: xs => x :: (firstDedup xs).filter (fun y => y != x)

/-- Observable outcome of `save_files`: the returned boolean, the
directories ensured, and the file writes in program order. -/
structure SaveOutput where
  success : Bool
  dirs : List String
  writes : List (String × List TickerRecord)
deriving Repr, DecidableEq

/-- The industry iteration list of `save_files`: the distinct industry
values of the sorted frame that are non-empty and non-whitespace, in
sorted order. -/
def industriesOf (df : List TickerRecord) : List String :=
  sortStrs (firstDedup ((df.map (fun r => r.industry)).filter
    (fun i => decide (i ≠ "") && decide (pyStrip i ≠ ""))))

/-- The per-industry writes of `save_files`, in iteration order: one file
per listed industry, holding the records of that industry in `df` order
(the `len == 0` guard of the script is the final filter). -/
def indWritesOf (df : List TickerRecord) : List (String × List TickerRecord) :=
  ((industriesOf df).map (fun ind =>
    ("by_industry/" ++ sanitize ind ++ ".csv",
      df.filter (fun r => decide (r.industry = ind))))).filter
  (fun p => decide (p.2 ≠ []))

/-- `save_files` from `update_tickers.py`: failure on empty input with no
side effects; otherwise sort by market cap descending and write the full
list, the top-50/100/200 prefixes, and one file per distinct non-empty
industry (industries iterated in sorted order, each file holding the
sorted records of that industry under the sanitized filename). -/
def save_files (tickers : List TickerRecord) : SaveOutput :=
  if tickers = [] then { success := false, dirs := [], writes := [] }
  else
    let df := sort_values_marketCap_desc tickers
    { success := true
      dirs := ["tickers", "by_industry"]
      writes := [("tickers/all.csv", df),
                 ("tickers/top_50.csv", df.take 50),
                 ("tickers/top_100.csv", df.take 100),
                 ("tickers/top_200.csv", df.take 200)] ++ indWritesOf df }

/-- File system resulting from the writes: the content of a file is the
payload of the last write to that name. -/
def finalFile (out : SaveOutput) (fname : String) : Option (List TickerRecord) :=
  (out.writes.reverse.find? (fun p => decide (p.1 = fname))).map (fun p => p.2)

/-- Sample record with a non-null market cap. -/
def tSome : TickerRecord :=
  { symbol := "AAA", name := "Alpha", price := none, marketCap := some 5
    volume := none, industry := "Tech" }

/-- Sample record with a null market cap. -/
def tNone : TickerRecord :=
  { symbol := "BBB", name := "Beta", price := none, marketCap := none
    volume := none, industry := "Tech" }

/-- Sample record whose industry name sanitizes to the same filename as
that of `tSome`. -/
def tDot : TickerRecord :=
  { symbol := "CCC", name := "Gamma", price := none, marketCap := some 1
    volume := none, industry := "Tech." }

/-- Sample US screener row; its symbol needs trimming. -/
def rowA : RawRow :=
  { country := some "United States", symbol := some " AAPL ", name := some "Apple Inc."
    lastsale := some "$12.34", marketCap := some "$1.2T", volume := some "1,234,567"
    sector := some "Technology" }

/-- Sample US row duplicating the symbol of `rowA`. -/
def rowB : RawRow :=
  { country := some "United States", symbol := some "AAPL", name := some "Apple again"
    lastsale := some "$1.00", marketCap := some "$500M", volume := some "10"
    sector := some "Technology" }

/-- Sample non-US row. -/
def rowC : RawRow :=
  { country := some "Canada", symbol := some "SHOP", name := some "Shopify"
    lastsale := some "$50", marketCap := some "$100B", volume := some "5"
    sector := some "Technology" }

/-- Sample raw input list exercising trimming, deduplication and the
country filter. -/
def demoRows : List RawRow := [rowA, rowB, rowC]

/-- A record list whose null-market-cap records all come after its
non-null ones: the list splits as a non-null block followed by a null
block. -/
def SplitNulls (l : List TickerRecord) : Prop :=
  ∃ a b, l = a ++ b ∧ (∀ r ∈ a, r.marketCap ≠ none) ∧ (∀ r ∈ b, r.marketCap = none)

/-- Distinct single-character suffixes exclude each other: a string whose
last character is `b` does not end with `c ≠ b`. -/
theorem pyEndsWith1_ne {s : String} {b c : Char} (h : pyEndsWith1 s b = true)
    (hbc : b ≠ c) : pyEndsWith1 s c = false := by
  simp only [pyEndsWith1, beq_iff_eq] at h ⊢
  rw [h]
  simp [hbc]

/-- C4: `parse_market_cap` returns null on empty input or the literal
N/A; otherwise, after stripping dollar signs, commas and surrounding
whitespace, a T/B/M/K suffix multiplies the parsed numeric prefix by
1e12/1e9/1e6/1e3, any other cleaned string is parsed directly, and any
parse failure yields null; in particular `$1.2T` parses to 1.2e12,
`$500M` to 5e8, and `N/A` and the empty string to null. -/
theorem parse_market_cap_spec :
    parse_market_cap "" = none ∧
    parse_market_cap "N/A" = none ∧
    (∀ s : String, s ≠ "" → s ≠ "N/A" → pyEndsWith1 (clean s) 'T' = true →
      parse_market_cap s = (pyFloat (pyDropLast (clean s))).map (fun q => q * 1000000000000)) ∧
    (∀ s : String, s ≠ "" → s ≠ "N/A" → pyEndsWith1 (clean s) 'B' = true →
      parse_market_cap s = (pyFloat (pyDropLast (clean s))).map (fun q => q * 1000000000)) ∧
    (∀ s : String, s ≠ "" → s ≠ "N/A" → pyEndsWith1 (clean s) 'M' = true →
      parse_market_cap s = (pyFloat (pyDropLast (clean s))).map (fun q => q * 1000000)) ∧
    (∀ s : String, s ≠ "" → s ≠ "N/A" → pyEndsWith1 (clean s) 'K' = true →
      parse_market_cap s = (pyFloat (pyDropLast (clean s))).map (fun q => q * 1000)) ∧
    (∀ s : String, s ≠ "" → s ≠ "N/A" →
      pyEndsWith1 (clean s) 'T' = false → pyEndsWith1 (clean s) 'B' = false →
      pyEndsWith1 (clean s) 'M' = false → pyEndsWith1 (clean s) 'K' = false →
      parse_market_cap s = pyFloat (clean s)) ∧
    parse_market_cap "$1.2T" = some 1200000000000 ∧
    parse_market_cap "$500M" = some 500000000 := by
  refine ⟨by decide, by decide, ?_, ?_, ?_, ?_, ?_, by decide, by decide⟩
  · intro s h1 h2 hT
    simp [parse_market_cap, h1, h2, hT]
  · intro s h1 h2 hB
    have hT := pyEndsWith1_ne hB (show 'B' ≠ 'T' by decide)
    simp [parse_market_cap, h1, h2, hT, hB]
  · intro s h1 h2 hM
    have hT := pyEndsWith1_ne hM (show 'M' ≠ 'T' by decide)
    have hB := pyEndsWith1_ne hM (show 'M' ≠ 'B' by decide)
    simp [parse_market_cap, h1, h2, hT, hB, hM]
  · intro s h1 h2 hK
    have hT := pyEndsWith1_ne hK (show 'K' ≠ 'T' by decide)
    have hB := pyEndsWith1_ne hK (show 'K' ≠ 'B' by decide)
    have hM := pyEndsWith1_ne hK (show 'K' ≠ 'M' by decide)
    simp [parse_market_cap, h1, h2, hT, hB, hM, hK]
  · intro s h1 h2 hT hB hM hK
    simp [parse_market_cap, h1, h2, hT, hB, hM, hK]

/-- Witness for `parse_market_cap_spec` at concrete inputs. -/
theorem parse_market_cap_spec_witness :
    "$2B" ≠ "" ∧ pyEndsWith1 (clean "$2B") 'B' = true ∧
    parse_market_cap "$2B" = (pyFloat (pyDropLast (clean "$2B"))).map (fun q => q * 1000000000) :=
  ⟨by decide, by decide,
    parse_market_cap_spec.2.2.2.1 "$2B" (by decide) (by decide) (by decide)⟩

/-- C9 counterexample: the claim says integer-parse strips dollar signs,
but `parse_int` strips only commas, so `$100` fails to parse and yields
null instead of 100. -/
theorem parse_int_dollar_cex :
    parse_int "$100" = none ∧ parse_int "$100" ≠ some 100 := by decide

/-- C9 amended: `parse_number` and `parse_int` return null on empty or
N/A input; otherwise `parse_number` strips dollar signs, commas and
surrounding whitespace and parses as a float, while `parse_int` strips
only commas and surrounding whitespace and parses as an integer; both
return null instead of raising on parse failure; `$12.34` parses to
12.34 and `1,234,567` to 1234567. -/
theorem number_int_parse_spec :
    (∀ s : String, (s = "" ∨ s = "N/A") → parse_number s = none ∧ parse_int s = none) ∧
    (∀ s : String, s ≠ "" → s ≠ "N/A" →
      parse_number s = pyFloat (pyStrip (pyRemoveChar ',' (pyRemoveChar '$' s)))) ∧
    (∀ s : String, s ≠ "" → s ≠ "N/A" →
      parse_int s = pyInt (pyStrip (pyRemoveChar ',' s))) ∧
    parse_number "$12.34" = some (1234 / 100) ∧
    parse_int "1,234,567" = some 1234567 := by
  refine ⟨?_, ?_, ?_, by decide, by decide⟩
  · intro s h
    constructor <;> simp [parse_number, parse_int, h]
  · intro s h1 h2
    simp [parse_number, h1, h2]
  · intro s h1 h2
    simp [parse_int, h1, h2]

/-- Witness for `number_int_parse_spec` at concrete inputs. -/
theorem number_int_parse_spec_witness :
    ("N/A" = "" ∨ "N/A" = "N/A") ∧ parse_number "N/A" = none ∧ parse_int "N/A" = none ∧
    parse_int "7" = pyInt (pyStrip (pyRemoveChar ',' "7")) :=
  ⟨Or.inr rfl, (number_int_parse_spec.1 "N/A" (Or.inr rfl)).1,
    (number_int_parse_spec.1 "N/A" (Or.inr rfl)).2,
    number_int_parse_spec.2.2.1 "7" (by decide) (by decide)⟩

/-- C8: calling the writer with an empty record sequence returns failure
and performs no side effects: no directories are created and no files
are written. -/
theorem save_files_empty_no_output :
    save_files [] = { success := false, dirs := [], writes := [] } := rfl

/-- C10: the filename sanitization is not injective: the distinct
industry strings Tech. and Tech, both non-empty after trimming, sanitize
to the same filename; when both occur in the input, the partition file of
the lexicographically later industry overwrites the earlier one, and the
surviving file lacks the records of the earlier industry. -/
theorem sanitize_collision_overwrite :
    "Tech" ≠ "Tech." ∧ pyStrip "Tech" ≠ "" ∧ pyStrip "Tech." ≠ "" ∧
    sanitize "Tech" = sanitize "Tech." ∧ strLe "Tech" "Tech." = true ∧
    tSome.industry = "Tech" ∧ tDot.industry = "Tech." ∧
    finalFile (save_files [tSome, tDot]) ("by_industry/" ++ sanitize "Tech" ++ ".csv") =
      some [tDot] ∧
    tSome ∉ [tDot] := by decide

/-- Every record produced from seen set `seen` has a non-empty symbol
that is not in `seen`. -/
theorem processRows_symbol_not_seen :
    ∀ (rows : List RawRow) (seen : List String) (t : TickerRecord),
      t ∈ processRows rows seen → t.symbol ≠ "" ∧ t.symbol ∉ seen := by
  intro rows
  induction rows with
  | nil => intro seen t h; simp [processRows] at h
  | cons row rest ih =>
    intro seen t h
    simp only [processRows] at h
    by_cases hc : row.country = some "United States"
    · rw [if_pos hc] at h
      by_cases hs : trimSym row = "" ∨ trimSym row ∈ seen
      · rw [if_pos hs] at h
        exact ih seen t h
      · rw [if_neg hs] at h
        push_neg at hs
        rcases List.mem_cons.mp h with rfl | h2
        · exact ⟨hs.1, hs.2⟩
        · have h3 := ih _ t h2
          exact ⟨h3.1, fun hseen => h3.2 (List.mem_cons_of_mem _ hseen)⟩
    · rw [if_neg hc] at h
      exact ih seen t h

/-- Symbols of the produced records are pairwise distinct. -/
theorem processRows_symbols_nodup :
    ∀ (rows : List RawRow) (seen : List String),
      ((processRows rows seen).map TickerRecord.symbol).Nodup := by
  intro rows
  induction rows with
  | nil => intro seen; simp [processRows]
  | cons row rest ih =>
    intro seen
    simp only [processRows]
    by_cases hc : row.country = some "United States"
    · rw [if_pos hc]
      by_cases hs : trimSym row = "" ∨ trimSym row ∈ seen
      · rw [if_pos hs]; exact ih seen
      · rw [if_neg hs]
        simp only [List.map_cons, List.nodup_cons]
        refine ⟨?_, ih _⟩
        intro hmem
        rcases List.mem_map.mp hmem with ⟨t, ht, hts⟩
        apply (processRows_symbol_not_seen rest _ t ht).2
        rw [hts]
        exact List.mem_cons_self _ _
    · rw [if_neg hc]; exact ih seen

/-- Records whose symbol is already marked seen are never produced. -/
theorem processRows_filter_seen :
    ∀ (rows : List RawRow) (seen : List String) (s : String), s ∈ seen →
      (processRows rows seen).filter (fun t => decide (t.symbol = s)) = [] := by
  intro rows seen s hs
  rw [List.filter_eq_nil_iff]
  intro t ht
  simp only [decide_eq_true_eq]
  intro heq
  exact (processRows_symbol_not_seen rows seen t ht).2 (heq ▸ hs)

/-- `rowsWithSym` as a single filter over the raw rows. -/
theorem rowsWithSym_eq (rows : List RawRow) (s : String) :
    rowsWithSym rows s = rows.filter (fun r => isUS r && decide (trimSym r = s)) := by
  simp only [rowsWithSym, usRows]
  induction rows with
  | nil => rfl
  | cons row rest ih =>
    rw [List.filter_cons]
    by_cases hU : isUS row = true
    · rw [if_pos (by simp [hU]), List.filter_cons, List.filter_cons, hU]
      by_cases hs : decide (trimSym row = s) = true
      · rw [hs]
        simp [ih]
      · rw [Bool.eq_false_iff.mpr hs]
        simp [ih]
    · have hU2 : isUS row = false := Bool.eq_false_iff.mpr hU
      rw [if_neg (by simp [hU2]), List.filter_cons, hU2]
      simp [ih]

/-- Filtering the produced records by a fresh symbol `s` yields just the
record of the first retained raw row with that trimmed symbol. -/
theorem processRows_filter_symbol :
    ∀ (rows : List RawRow) (seen : List String) (s : String), s ∉ seen → s ≠ "" →
      (processRows rows seen).filter (fun t => decide (t.symbol = s)) =
        ((rowsWithSym rows s).head?.map mkRecord).toList := by
  intro rows
  induction rows with
  | nil => intro seen s _ _; simp [processRows, rowsWithSym, usRows]
  | cons row rest ih =>
    intro seen s hseen hne
    rw [rowsWithSym_eq, List.filter_cons]
    simp only [processRows]
    by_cases hc : row.country = some "United States"
    · have hU : isUS row = true := decide_eq_true hc
      rw [if_pos hc]
      by_cases hskip : trimSym row = "" ∨ trimSym row ∈ seen
      · have hF : (isUS row && decide (trimSym row = s)) = false := by
          have : trimSym row ≠ s := by
            intro heq
            rcases hskip with h1 | h1
            · exact hne (heq ▸ h1)
            · exact hseen (heq ▸ h1)
          simp [this]
        rw [if_pos hskip, hF, if_neg (by simp)]
        rw [ih seen s hseen hne, rowsWithSym_eq]
      · rw [if_neg hskip]
        push_neg at hskip
        by_cases heq : trimSym row = s
        · have hF : (isUS row && decide (trimSym row = s)) = true := by simp [hU, heq]
          rw [hF, if_pos rfl, List.filter_cons]
          have hsym : decide ((mkRecord row).symbol = s) = true := by
            simp [mkRecord, heq]
          rw [hsym, if_pos rfl]
          have htail := processRows_filter_seen rest (trimSym row :: seen) s
            (heq ▸ List.mem_cons_self _ _)
          rw [htail]
          rfl
        · have hF : (isUS row && decide (trimSym row = s)) = false := by simp [heq]
          rw [hF, if_neg (by simp), List.filter_cons]
          have hsym : decide ((mkRecord row).symbol = s) = false := by
            simp [mkRecord, heq]
          rw [hsym, if_neg (by simp)]
          have hseen2 : s ∉ trimSym row :: seen := by
            intro hm
            rcases List.mem_cons.mp hm with h1 | h1
            · exact heq h1.symm
            · exact hseen h1
          rw [ih (trimSym row :: seen) s hseen2 hne, rowsWithSym_eq]
    · have hU : isUS row = false := by
        simp only [isUS]
        exact decide_eq_false hc
      rw [if_neg hc, hU, if_neg (by simp)]
      rw [ih seen s hseen hne, rowsWithSym_eq]

/-- C3: each trimmed symbol occurring in at least two retained rows yields
exactly one record, built from the first such row; empty trimmed symbols
are discarded, all output symbols are non-empty, and symbols are pairwise
distinct. -/
theorem fetch_tickers_dedup (rows : List RawRow) :
    ((fetch_tickers rows).map TickerRecord.symbol).Nodup ∧
    (∀ t ∈ fetch_tickers rows, t.symbol ≠ "") ∧
    (∀ (s : String) (r : RawRow), s ≠ "" → 2 ≤ (rowsWithSym rows s).length →
      (rowsWithSym rows s).head? = some r →
      (fetch_tickers rows).filter (fun t => decide (t.symbol = s)) = [mkRecord r]) := by
  refine ⟨processRows_symbols_nodup rows [], ?_, ?_⟩
  · intro t ht
    exact (processRows_symbol_not_seen rows [] t ht).1
  · intro s r hne _ hhead
    have h := processRows_filter_symbol rows [] s (by simp) hne
    simp only [fetch_tickers] at h ⊢
    rw [h, hhead]
    rfl

/-- Witness for `fetch_tickers_dedup`: the symbol AAPL occurs in two
retained demo rows and the output keeps only the first occurrence. -/
theorem fetch_tickers_dedup_witness :
    2 ≤ (rowsWithSym demoRows "AAPL").length ∧
    (rowsWithSym demoRows "AAPL").head? = some rowA ∧
    (fetch_tickers demoRows).filter (fun t => decide (t.symbol = "AAPL")) = [mkRecord rowA] :=
  ⟨by decide, by decide,
    (fetch_tickers_dedup demoRows).2.2 "AAPL" rowA (by decide) (by decide) (by decide)⟩

/-- Non-US rows are transparent to the normalizer at every seen set. -/
theorem processRows_filter_us :
    ∀ (rows : List RawRow) (seen : List String),
      processRows rows seen = processRows (rows.filter isUS) seen := by
  intro rows
  induction rows with
  | nil => intro seen; rfl
  | cons row rest ih =>
    intro seen
    by_cases hc : row.country = some "United States"
    · have hU : isUS row = true := decide_eq_true hc
      rw [List.filter_cons, if_pos (by simp [hU])]
      simp only [processRows, if_pos hc]
      by_cases hs : trimSym row = "" ∨ trimSym row ∈ seen
      · rw [if_pos hs, if_pos hs]; exact ih seen
      · rw [if_neg hs, if_neg hs, ih (trimSym row :: seen)]
    · have hU : isUS row = false := by
        simp only [isUS]; exact decide_eq_false hc
      rw [List.filter_cons, if_neg (by simp [hU])]
      simp only [processRows, if_neg hc]
      exact ih seen

/-- Every produced record originates from a US raw row. -/
theorem processRows_provenance :
    ∀ (rows : List RawRow) (seen : List String) (t : TickerRecord),
      t ∈ processRows rows seen →
      ∃ row, row ∈ rows ∧ isUS row = true ∧ t = mkRecord row := by
  intro rows
  induction rows with
  | nil => intro seen t ht; simp [processRows] at ht
  | cons row rest ih =>
    intro seen t ht
    simp only [processRows] at ht
    by_cases hc : row.country = some "United States"
    · rw [if_pos hc] at ht
      by_cases hs : trimSym row = "" ∨ trimSym row ∈ seen
      · rw [if_pos hs] at ht
        obtain ⟨r, hr, hrr⟩ := ih seen t ht
        exact ⟨r, List.mem_cons_of_mem _ hr, hrr⟩
      · rw [if_neg hs] at ht
        rcases List.mem_cons.mp ht with rfl | h2
        · exact ⟨row, List.mem_cons_self _ _, decide_eq_true hc, rfl⟩
        · obtain ⟨r, hr, hrr⟩ := ih _ t h2
          exact ⟨r, List.mem_cons_of_mem _ hr, hrr⟩
    · rw [if_neg hc] at ht
      obtain ⟨r, hr, hrr⟩ := ih seen t ht
      exact ⟨r, List.mem_cons_of_mem _ hr, hrr⟩

/-- C7: rows whose country differs from United States (absent fields
included) contribute no record: the output equals the output on the
US-filtered rows, and every output record comes from a US row. -/
theorem fetch_tickers_us_only (rows : List RawRow) :
    fetch_tickers rows = fetch_tickers (rows.filter isUS) ∧
    (∀ t ∈ fetch_tickers rows, ∃ row, row ∈ rows ∧ isUS row = true ∧ t = mkRecord row) :=
  ⟨processRows_filter_us rows [], fun t ht => processRows_provenance rows [] t ht⟩

/-- Witness for `fetch_tickers_us_only` on the demo rows. -/
theorem fetch_tickers_us_only_witness :
    mkRecord rowA ∈ fetch_tickers demoRows ∧
    (∃ row, row ∈ demoRows ∧ isUS row = true ∧ mkRecord rowA = mkRecord row) :=
  ⟨by decide, (fetch_tickers_us_only demoRows).2 (mkRecord rowA) (by decide)⟩

/-- Inserting preserves the multiset of records. -/
theorem insertCapDesc_perm (r : TickerRecord) (l : List TickerRecord) :
    List.Perm (insertCapDesc r l) (r :: l) := by
  induction l with
  | nil => exact List.Perm.refl _
  | cons x xs ih =>
    simp only [insertCapDesc]
    by_cases h : capOf x ≤ capOf r
    · rw [if_pos h]
    · rw [if_neg h]
      exact (List.Perm.cons x ih).trans (List.Perm.swap r x xs)

/-- Sorting preserves the multiset of records. -/
theorem sortCapDesc_perm (l : List TickerRecord) :
    List.Perm (sortCapDesc l) l := by
  induction l with
  | nil => exact List.Perm.refl _
  | cons r rs ih => exact (insertCapDesc_perm r (sortCapDesc rs)).trans (List.Perm.cons r ih)

/-- The sorted frame is a permutation of the input records. -/
theorem sort_values_perm (tickers : List TickerRecord) :
    List.Perm (sort_values_marketCap_desc tickers) tickers := by
  unfold sort_values_marketCap_desc
  refine (List.Perm.append_right _ (sortCapDesc_perm _)).trans ?_
  have h2 : tickers.filter (fun r => r.marketCap.isNone) =
      tickers.filter (fun r => !(r.marketCap.isSome)) := by
    apply List.filter_congr
    intro r _
    cases r.marketCap <;> rfl
  rw [h2]
  exact List.filter_append_perm _ tickers

/-- The sorted frame places all null market caps after the non-null ones. -/
theorem splitNulls_sort (tickers : List TickerRecord) :
    SplitNulls (sort_values_marketCap_desc tickers) := by
  refine ⟨sortCapDesc (tickers.filter (fun r => r.marketCap.isSome)),
    tickers.filter (fun r => r.marketCap.isNone), rfl, ?_, ?_⟩
  · intro r hr
    have hmem : r ∈ tickers.filter (fun r => r.marketCap.isSome) :=
      (sortCapDesc_perm _).mem_iff.mp hr
    have h2 := (List.mem_filter.mp hmem).2
    intro hnone
    rw [hnone] at h2
    cases h2
  · intro r hr
    have h2 := (List.mem_filter.mp hr).2
    cases hmc : r.marketCap with
    | none => rfl
    | some q => rw [hmc] at h2; cases h2

/-- Taking a front segment preserves the null-last split. -/
theorem SplitNulls.take (n : ℕ) {l : List TickerRecord} (h : SplitNulls l) :
    SplitNulls (l.take n) := by
  obtain ⟨a, b, rfl, ha, hb⟩ := h
  refine ⟨a.take n, b.take (n - a.length), List.take_append_eq_append_take, ?_, ?_⟩
  · intro r hr; exact ha r (List.take_subset _ _ hr)
  · intro r hr; exact hb r (List.take_subset _ _ hr)

/-- Filtering preserves the null-last split. -/
theorem SplitNulls.filter (p : TickerRecord → Bool) {l : List TickerRecord}
    (h : SplitNulls l) : SplitNulls (l.filter p) := by
  obtain ⟨a, b, rfl, ha, hb⟩ := h
  refine ⟨a.filter p, b.filter p, by rw [List.filter_append], ?_, ?_⟩
  · intro r hr; exact ha r (List.mem_of_mem_filter hr)
  · intro r hr; exact hb r (List.mem_of_mem_filter hr)

/-- Positional reading of the null-last split: a null entry never
precedes a non-null entry. -/
theorem SplitNulls.nulls_after {l : List TickerRecord} (h : SplitNulls l)
    (i j : ℕ) (hi : i < l.length) (hj : j < l.length)
    (hnull : (l.get ⟨i, hi⟩).marketCap = none)
    (hval : (l.get ⟨j, hj⟩).marketCap ≠ none) : j < i := by
  obtain ⟨a, b, rfl, ha, hb⟩ := h
  have hia : ¬ i < a.length := by
    intro hlt
    have hg : (a ++ b).get ⟨i, hi⟩ = a.get ⟨i, hlt⟩ := by
      simp only [List.get_eq_getElem]
      exact List.getElem_append_left hlt
    apply ha (a.get ⟨i, hlt⟩) (List.get_mem a i hlt)
    rw [← hg]
    exact hnull
  have hja : j < a.length := by
    by_contra hge
    push_neg at hge
    have hlen : (a ++ b).length = a.length + b.length := List.length_append a b
    have hjb : j - a.length < b.length := by omega
    have hg : (a ++ b).get ⟨j, hj⟩ = b.get ⟨j - a.length, hjb⟩ := by
      simp only [List.get_eq_getElem]
      exact List.getElem_append_right hge
    apply hval
    rw [hg]
    exact hb _ (List.get_mem b _ hjb)
  omega

/-- The writes list of `save_files` on non-empty input. -/
theorem save_files_writes_eq (tickers : List TickerRecord) (h : tickers ≠ []) :
    (save_files tickers).writes =
      [("tickers/all.csv", sort_values_marketCap_desc tickers),
       ("tickers/top_50.csv", (sort_values_marketCap_desc tickers).take 50),
       ("tickers/top_100.csv", (sort_values_marketCap_desc tickers).take 100),
       ("tickers/top_200.csv", (sort_values_marketCap_desc tickers).take 200)] ++
      indWritesOf (sort_values_marketCap_desc tickers) := by
  simp only [save_files, if_neg h]

/-- Every write of `save_files` has the null-last split. -/
theorem splitNulls_writes (tickers : List TickerRecord) :
    ∀ w ∈ (save_files tickers).writes, SplitNulls w.2 := by
  intro w hw
  by_cases h : tickers = []
  · rw [h] at hw
    simp [save_files] at hw
  · rw [save_files_writes_eq tickers h] at hw
    have hs := splitNulls_sort tickers
    rcases List.mem_append.mp hw with hF | hI
    · simp only [List.mem_cons, List.not_mem_nil, or_false] at hF
      rcases hF with rfl | rfl | rfl | rfl
      · exact hs
      · exact hs.take 50
      · exact hs.take 100
      · exact hs.take 200
    · have hmap := List.mem_of_mem_filter hI
      rcases List.mem_map.mp hmap with ⟨ind, _, rfl⟩
      exact hs.filter _

/-- C2: in every file written by the writer (the full listing, each top-N
list, and each industry partition), every record with a null market cap
appears strictly after every record with a non-null market cap. -/
theorem save_files_nulls_last (tickers : List TickerRecord)
    (w : String × List TickerRecord) (hw : w ∈ (save_files tickers).writes)
    (i j : ℕ) (hi : i < w.2.length) (hj : j < w.2.length)
    (hnull : (w.2.get ⟨i, hi⟩).marketCap = none)
    (hval : (w.2.get ⟨j, hj⟩).marketCap ≠ none) : j < i :=
  (splitNulls_writes tickers w hw).nulls_after i j hi hj hnull hval

/-- Witness for `save_files_nulls_last` on a concrete run. -/
theorem save_files_nulls_last_witness :
    ("tickers/all.csv", [tSome, tNone]) ∈ (save_files [tNone, tSome]).writes ∧ (0 : ℕ) < 1 :=
  ⟨by decide,
    save_files_nulls_last [tNone, tSome] ("tickers/all.csv", [tSome, tNone]) (by decide)
      1 0 (by decide) (by decide) (by decide) (by decide)⟩

/-- A search over an append skips a front block with no matches. -/
theorem find_append_none {α : Type} (p : α → Bool) (l₁ l₂ : List α)
    (h : ∀ x ∈ l₁, p x = false) : (l₁ ++ l₂).find? p = l₂.find? p := by
  induction l₁ with
  | nil => rfl
  | cons x xs ih =>
    rw [List.cons_append, List.find?_cons_of_neg _ (by simp [h x (List.mem_cons_self x xs)])]
    exact ih (fun y hy => h y (List.mem_cons_of_mem x hy))

/-- An industry filename never equals a name starting with letter t. -/
theorem byIndustry_ne (x s : String) (hs : s.data.head? = some 't') :
    ("by_industry/" ++ x ++ ".csv") ≠ s := by
  intro h
  have hb : ("by_industry/" ++ x ++ ".csv").data.head? = some 'b' := rfl
  rw [h, hs] at hb
  exact absurd hb (by decide)

/-- C5: on non-empty input the all file is exactly the sorted records
(one row per input record, so a permutation of the writer input), and the
top-50/100/200 files are exactly the 50/100/200-prefixes of that same
sorted sequence, truncated when fewer records exist. -/
theorem save_files_top_lists (tickers : List TickerRecord) (h : tickers ≠ []) :
    List.Perm (sort_values_marketCap_desc tickers) tickers ∧
    finalFile (save_files tickers) "tickers/all.csv" =
      some (sort_values_marketCap_desc tickers) ∧
    finalFile (save_files tickers) "tickers/top_50.csv" =
      some ((sort_values_marketCap_desc tickers).take 50) ∧
    finalFile (save_files tickers) "tickers/top_100.csv" =
      some ((sort_values_marketCap_desc tickers).take 100) ∧
    finalFile (save_files tickers) "tickers/top_200.csv" =
      some ((sort_values_marketCap_desc tickers).take 200) := by
  have hw := save_files_writes_eq tickers h
  have hnone : ∀ (s : String), s.data.head? = some 't' →
      ∀ q ∈ (indWritesOf (sort_values_marketCap_desc tickers)).reverse,
      (fun p : String × List TickerRecord => decide (p.1 = s)) q = false := by
    intro s hs q hq
    have hq2 := List.mem_reverse.mp hq
    have hmap := List.mem_of_mem_filter hq2
    rcases List.mem_map.mp hmap with ⟨ind, _, rfl⟩
    simp only [decide_eq_false_iff_not]
    exact byIndustry_ne (sanitize ind) s hs
  refine ⟨sort_values_perm tickers, ?_, ?_, ?_, ?_⟩
  · unfold finalFile
    rw [hw, List.reverse_append, find_append_none _ _ _ (hnone "tickers/all.csv" rfl)]
    rfl
  · unfold finalFile
    rw [hw, List.reverse_append, find_append_none _ _ _ (hnone "tickers/top_50.csv" rfl)]
    rfl
  · unfold finalFile
    rw [hw, List.reverse_append, find_append_none _ _ _ (hnone "tickers/top_100.csv" rfl)]
    rfl
  · unfold finalFile
    rw [hw, List.reverse_append, find_append_none _ _ _ (hnone "tickers/top_200.csv" rfl)]
    rfl

/-- Witness for `save_files_top_lists` on a concrete run. -/
theorem save_files_top_lists_witness :
    ([tNone, tSome] ≠ ([] : List TickerRecord)) ∧
    finalFile (save_files [tNone, tSome]) "tickers/all.csv" =
      some (sort_values_marketCap_desc [tNone, tSome]) :=
  ⟨by decide, (save_files_top_lists [tNone, tSome] (by decide)).2.1⟩

/-- Membership in an insertion. -/
theorem mem_insertStr {y s : String} {l : List String} :
    y ∈ insertStr s l ↔ y = s ∨ y ∈ l := by
  induction l with
  | nil => simp [insertStr]
  | cons x xs ih =>
    simp only [insertStr]
    by_cases h : strLe s x = true
    · rw [if_pos h]
      simp [List.mem_cons]
    · rw [if_neg h]
      simp only [List.mem_cons, ih]
      tauto

/-- Sorting the industry list preserves membership. -/
theorem mem_sortStrs {y : String} {l : List String} : y ∈ sortStrs l ↔ y ∈ l := by
  induction l with
  | nil => simp [sortStrs]
  | cons x xs ih =>
    show y ∈ insertStr x (sortStrs xs) ↔ _
    rw [mem_insertStr, ih]
    simp [List.mem_cons]

/-- Deduplication preserves membership. -/
theorem mem_firstDedup {y : String} {l : List String} : y ∈ firstDedup l ↔ y ∈ l := by
  induction l with
  | nil => simp [firstDedup]
  | cons x xs ih =>
    simp only [firstDedup, List.mem_cons]
    constructor
    · rintro (rfl | hy)
      · exact Or.inl rfl
      · exact Or.inr (ih.mp (List.mem_of_mem_filter hy))
    · rintro (rfl | hy)
      · exact Or.inl rfl
      · by_cases hxy : y = x
        · exact Or.inl hxy
        · refine Or.inr (List.mem_filter.mpr ⟨ih.mpr hy, ?_⟩)
          simp [hxy]

/-- C6: every industry value that is non-empty after trimming and occurs
in the input yields a write of the sanitized filename holding exactly the
records of that industry in globally sorted order; conversely every write
beyond the four fixed files is of this form, so an empty or
whitespace-only industry yields no file; the industry Consumer
Discretionary yields the file name consumer_discretionary. -/
theorem save_files_industry_partitions (tickers : List TickerRecord) (h : tickers ≠ []) :
    sanitize "Consumer Discretionary" = "consumer_discretionary" ∧
    (∀ v : String, pyStrip v ≠ "" → (∃ r ∈ tickers, r.industry = v) →
      ("by_industry/" ++ sanitize v ++ ".csv",
        (sort_values_marketCap_desc tickers).filter (fun r => decide (r.industry = v))) ∈
        (save_files tickers).writes) ∧
    (∀ w ∈ (save_files tickers).writes.drop 4, ∃ v : String, pyStrip v ≠ "" ∧
      (∃ r ∈ tickers, r.industry = v) ∧
      w = ("by_industry/" ++ sanitize v ++ ".csv",
        (sort_values_marketCap_desc tickers).filter (fun r => decide (r.industry = v)))) := by
  have hw := save_files_writes_eq tickers h
  refine ⟨by decide, ?_, ?_⟩
  · intro v hstrip ⟨r, hr, hrv⟩
    have hne : v ≠ "" := by
      intro hv
      rw [hv] at hstrip
      exact hstrip rfl
    have hrdf : r ∈ sort_values_marketCap_desc tickers :=
      (sort_values_perm tickers).mem_iff.mpr hr
    have hvmap : v ∈ (sort_values_marketCap_desc tickers).map (fun r => r.industry) :=
      List.mem_map.mpr ⟨r, hrdf, hrv⟩
    have hvind : v ∈ industriesOf (sort_values_marketCap_desc tickers) := by
      unfold industriesOf
      rw [mem_sortStrs, mem_firstDedup]
      exact List.mem_filter.mpr ⟨hvmap, by simp [hne, hstrip]⟩
    have hrfil : r ∈ (sort_values_marketCap_desc tickers).filter
        (fun r => decide (r.industry = v)) :=
      List.mem_filter.mpr ⟨hrdf, by simp [hrv]⟩
    have hpair : ("by_industry/" ++ sanitize v ++ ".csv",
        (sort_values_marketCap_desc tickers).filter (fun r => decide (r.industry = v))) ∈
        indWritesOf (sort_values_marketCap_desc tickers) := by
      unfold indWritesOf
      refine List.mem_filter.mpr ⟨List.mem_map.mpr ⟨v, hvind, rfl⟩, ?_⟩
      simp only [decide_eq_true_eq]
      exact List.ne_nil_of_mem hrfil
    rw [hw]
    exact List.mem_append_right _ hpair
  · intro w hwmem
    rw [hw, List.drop_left' (by rfl)] at hwmem
    have hmap := List.mem_of_mem_filter hwmem
    rcases List.mem_map.mp hmap with ⟨ind, hind, rfl⟩
    have hind2 : ind ∈ (((sort_values_marketCap_desc tickers).map (fun r => r.industry)).filter
        (fun i => decide (i ≠ "") && decide (pyStrip i ≠ ""))) := by
      unfold industriesOf at hind
      rw [mem_sortStrs, mem_firstDedup] at hind
      exact hind
    rcases List.mem_filter.mp hind2 with ⟨hmem2, hcond⟩
    have hstrip : pyStrip ind ≠ "" := by
      simp only [Bool.and_eq_true, decide_eq_true_eq] at hcond
      exact hcond.2
    rcases List.mem_map.mp hmem2 with ⟨r, hrdf, hri⟩
    exact ⟨ind, hstrip, ⟨r, (sort_values_perm tickers).mem_iff.mp hrdf, hri⟩, rfl⟩

/-- Witness for `save_files_industry_partitions` on a concrete run. -/
theorem save_files_industry_partitions_witness :
    pyStrip "Tech" ≠ "" ∧
    ("by_industry/" ++ sanitize "Tech" ++ ".csv",
      (sort_values_marketCap_desc [tNone, tSome]).filter
        (fun r => decide (r.industry = "Tech"))) ∈ (save_files [tNone, tSome]).writes :=
  ⟨by decide,
    (save_files_industry_partitions [tNone, tSome] (by decide)).2.1 "Tech" (by decide)
      ⟨tSome, by decide, rfl⟩⟩
